import Mathlib

/-!
Verification development for the symmetric-key exercise repository.

The repository (src/src/lib.rs) wraps the XChaCha20-Poly1305 AEAD behind a
small CLI options structure: it derives a 32-byte key from a passphrase by
zero padding, derives a 24-byte nonce from one of three sources (all zeros,
a user string, or a generated letter-shuffle nonce), and seals or opens a
message to or from a file.

Bytes are modelled as `Nat` values below 256, byte strings as `List Nat`,
32-bit words as `Nat` with explicit reduction modulo `2 ^ 32`.  File input
and output is modelled by passing the ciphertext bytes explicitly, and the
random generator behind the generated nonce is modelled by passing the list
of positions the generator picks from its letter corpus.
-/

/-! ## 32-bit word helpers -/

/-- Addition modulo the 32-bit word size. -/
def add32 (a b : Nat) : Nat := (a + b) % 4294967296

/-- Left rotation of a 32-bit word by `n` bits. -/
def rotl32 (x n : Nat) : Nat := ((x <<< n) ||| (x >>> (32 - n))) % 4294967296

/-- Little-endian interpretation of a byte list as a number. -/
def leBytesToWord : List Nat → Nat
  | [] => 0
  | b :: rest => (b % 256) + 256 * leBytesToWord rest

/-- Group a byte list into little-endian 32-bit words, dropping a ragged tail. -/
def bytesToWords : List Nat → List Nat
  | b0 :: b1 :: b2 :: b3 :: rest => leBytesToWord [b0, b1, b2, b3] :: bytesToWords rest
  | _ => []

/-- The `k` little-endian bytes of the number `w`. -/
def natToLEBytes : Nat → Nat → List Nat
  | 0, _ => []
  | k + 1, w => (w % 256) :: natToLEBytes k (w / 256)

/-- Serialize 32-bit words to little-endian bytes. -/
def wordsToBytes (ws : List Nat) : List Nat := (ws.map (natToLEBytes 4)).flatten

/-! ## ChaCha20 core (RFC 8439), as used by the chacha20poly1305 crate -/

/-- The ChaCha20 quarter round applied at positions `a b c d` of the state. -/
def qround (s : List Nat) (a b c d : Nat) : List Nat :=
  let va := add32 (s.getD a 0) (s.getD b 0)
  let vd := rotl32 ((s.getD d 0) ^^^ va) 16
  let vc := add32 (s.getD c 0) vd
  let vb := rotl32 ((s.getD b 0) ^^^ vc) 12
  let va2 := add32 va vb
  let vd2 := rotl32 (vd ^^^ va2) 8
  let vc2 := add32 vc vd2
  let vb2 := rotl32 (vb ^^^ vc2) 7
  (((s.set a va2).set b vb2).set c vc2).set d vd2

/-- One ChaCha20 double round: the four column rounds then the four diagonal rounds. -/
def doubleRound (s : List Nat) : List Nat :=
  let s1 := qround s 0 4 8 12
  let s2 := qround s1 1 5 9 13
  let s3 := qround s2 2 6 10 14
  let s4 := qround s3 3 7 11 15
  let s5 := qround s4 0 5 10 15
  let s6 := qround s5 1 6 11 12
  let s7 := qround s6 2 7 8 13
  qround s7 3 4 9 14

/-- Iterate the double round. -/
def chachaRounds (s : List Nat) : Nat → List Nat
  | 0 => s
  | n + 1 => chachaRounds (doubleRound s) n

/-- The four ChaCha20 constant words. -/
def chachaConsts : List Nat := [1634760805, 857760878, 2036477234, 1797285236]

/-- The initial ChaCha20 state for a 32-byte key, block counter and 12-byte nonce. -/
def chachaInit (key : List Nat) (counter : Nat) (nonce12 : List Nat) : List Nat :=
  chachaConsts ++ bytesToWords key ++ [counter % 4294967296] ++ bytesToWords nonce12

/-- One 64-byte ChaCha20 keystream block. -/
def chachaBlock (key : List Nat) (counter : Nat) (nonce12 : List Nat) : List Nat :=
  let init := chachaInit key counter nonce12
  wordsToBytes (List.zipWith add32 init (chachaRounds init 10))

/-- HChaCha20: derives the 32-byte XChaCha20 subkey from a key and 16 nonce bytes. -/
def hchacha (key : List Nat) (nonce16 : List Nat) : List Nat :=
  let init := chachaConsts ++ bytesToWords key ++ bytesToWords nonce16
  let z := chachaRounds init 10
  wordsToBytes (z.take 4 ++ z.drop 12)

/-- `len` bytes of ChaCha20 keystream starting at block `counter`. -/
def chachaKeystream (key nonce12 : List Nat) (counter len : Nat) : List Nat :=
  (((List.range ((len + 63) / 64)).map fun i => chachaBlock key (counter + i) nonce12).flatten).take len

/-! ## Poly1305 (RFC 8439) -/

/-- The Poly1305 prime `2 ^ 130 - 5`. -/
def p1305 : Nat := 2 ^ 130 - 5

/-- Clamping of the Poly1305 `r` part. -/
def clampR (r : Nat) : Nat := r &&& 21267647620597763993911028882763415551

/-- Split a message into 16-byte chunks; the last chunk may be shorter. -/
def poly1305Chunks : List Nat → List (List Nat)
  | [] => []
  | b :: rest => ((b :: rest).take 16) :: poly1305Chunks ((b :: rest).drop 16)
  termination_by l => l.length
  decreasing_by simp [List.length_drop]; omega

/-- The Poly1305 authenticator of `msg` under the 32-byte `r ++ s` key, as a number. -/
def poly1305 (rsKey : List Nat) (msg : List Nat) : Nat :=
  let r := clampR (leBytesToWord (rsKey.take 16))
  let s := leBytesToWord (rsKey.drop 16)
  let acc := (poly1305Chunks msg).foldl
    (fun acc chunk => ((acc + leBytesToWord chunk + 2 ^ (8 * chunk.length)) * r) % p1305) 0
  (acc + s) % (2 ^ 128)

/-! ## XChaCha20-Poly1305 AEAD with empty associated data -/

/-- Zero padding that extends a length-`n` chunk to the 16-byte boundary. -/
def pad16Len (n : Nat) : Nat := (16 - n % 16) % 16

/-- The bytes authenticated by Poly1305 for ciphertext `ct` and empty associated data. -/
def macData (ct : List Nat) : List Nat :=
  ct ++ List.replicate (pad16Len ct.length) 0 ++ natToLEBytes 8 0 ++ natToLEBytes 8 ct.length

/-- The 16-byte AEAD tag for ciphertext `ct` under subkey `key` and 12-byte nonce. -/
def aeadTag (key nonce12 ct : List Nat) : List Nat :=
  natToLEBytes 16 (poly1305 ((chachaBlock key 0 nonce12).take 32) (macData ct))

/-- XChaCha20-Poly1305 sealing: ciphertext bytes followed by the 16-byte tag.
This models `XChaCha20Poly1305::encrypt` from the chacha20poly1305 crate. -/
def sealAead (key nonce24 pt : List Nat) : List Nat :=
  let sk := hchacha key (nonce24.take 16)
  let n12 := [0, 0, 0, 0] ++ nonce24.drop 16
  let ct := List.zipWith Nat.xor pt (chachaKeystream sk n12 1 pt.length)
  ct ++ aeadTag sk n12 ct

/-- XChaCha20-Poly1305 opening: checks the tag and releases the plaintext only on
a match.  This models `XChaCha20Poly1305::decrypt` from the chacha20poly1305
crate; `none` stands for the opaque `aead::Error`. -/
def openAead (key nonce24 c : List Nat) : Option (List Nat) :=
  if c.length < 16 then none
  else
    let sk := hchacha key (nonce24.take 16)
    let n12 := [0, 0, 0, 0] ++ nonce24.drop 16
    let ct := c.take (c.length - 16)
    if aeadTag sk n12 ct = c.drop (c.length - 16) then
      some (List.zipWith Nat.xor ct (chachaKeystream sk n12 1 ct.length))
    else none

/-! ## UTF-8, as used by Rust `String`

A Rust `String` is a byte vector that is valid UTF-8.  We model a `String`
value by its byte list together with validity of that list; `chars` is the
list of decoded code points. -/

/-- Decode one UTF-8 encoded code point from the front of a byte list,
returning it with the remaining bytes; `none` on an invalid sequence.  The
accepted sequences follow the validation performed by Rust
`String::from_utf8`. -/
def utf8Step : List Nat → Option (Nat × List Nat)
  | [] => none
  | b :: rest =>
    if b < 128 then some (b, rest)
    else if 194 ≤ b ∧ b ≤ 223 then
      match rest with
      | b2 :: rest2 =>
        if 128 ≤ b2 ∧ b2 ≤ 191 then some ((b - 192) * 64 + (b2 - 128), rest2) else none
      | [] => none
    else if 224 ≤ b ∧ b ≤ 239 then
      match rest with
      | b2 :: b3 :: rest3 =>
        if ((if b = 224 then 160 else 128) ≤ b2 ∧ b2 ≤ (if b = 237 then 159 else 191))
            ∧ 128 ≤ b3 ∧ b3 ≤ 191 then
          some ((b - 224) * 4096 + (b2 - 128) * 64 + (b3 - 128), rest3)
        else none
      | _ => none
    else if 240 ≤ b ∧ b ≤ 244 then
      match rest with
      | b2 :: b3 :: b4 :: rest4 =>
        if ((if b = 240 then 144 else 128) ≤ b2 ∧ b2 ≤ (if b = 244 then 143 else 191))
            ∧ (128 ≤ b3 ∧ b3 ≤ 191) ∧ 128 ≤ b4 ∧ b4 ≤ 191 then
          some ((b - 240) * 262144 + (b2 - 128) * 4096 + (b3 - 128) * 64 + (b4 - 128), rest4)
        else none
      | _ => none
    else none

/-- Decode a whole byte list, with explicit fuel bounding the number of code
points; each step consumes at least one byte, so the byte count is enough
fuel. -/
def utf8DecodeF : Nat → List Nat → Option (List Nat)
  | _, [] => some []
  | 0, _ :: _ => none
  | fuel + 1, b :: rest =>
    match utf8Step (b :: rest) with
    | some (c, rest2) => (utf8DecodeF fuel rest2).map fun cs => c :: cs
    | none => none

/-- Decode a byte list as UTF-8 code points; `none` on any invalid sequence.
This follows the validation performed by Rust `String::from_utf8`. -/
def utf8Decode (l : List Nat) : Option (List Nat) := utf8DecodeF l.length l

/-- Whether a byte list is valid UTF-8. -/
def validUtf8 (l : List Nat) : Bool := (utf8Decode l).isSome

/-- The code points of a valid UTF-8 byte list (the Rust `str::chars`). -/
def utf8Chars (l : List Nat) : List Nat := (utf8Decode l).getD []

/-- The UTF-8 encoding of one code point. -/
def utf8EncodeChar (c : Nat) : List Nat :=
  if c < 128 then [c]
  else if c < 2048 then [192 + c / 64, 128 + c % 64]
  else if c < 65536 then [224 + c / 4096, 128 + (c / 64) % 64, 128 + c % 64]
  else [240 + c / 262144, 128 + (c / 4096) % 64, 128 + (c / 64) % 64, 128 + c % 64]

/-! ## The repository code (src/src/lib.rs) -/

/-- Source constant `MAX_KEY_LENGTH`. -/
def MAX_KEY_LENGTH : Nat := 32

/-- Source constant `NONCE_LENGTH`. -/
def NONCE_LENGTH : Nat := 24

/-- The error enum `SimpleCipherError` of the source.  `Chacha` is the opaque
`chacha20poly1305::Error` (a payload-free unit); `Io` stands for the
`std::io::Error` variant named `IO` in the source (file input and output is
modelled by explicit byte lists, so this variant is never produced here);
`Utf8Conversion` carries the offending bytes of the `FromUtf8Error`. -/
inductive SimpleCipherError where
  | Chacha : SimpleCipherError
  | Io : SimpleCipherError
  | Utf8Conversion : List Nat → SimpleCipherError
  | KeyTooLong : Nat → SimpleCipherError
  | NonceGenerate : SimpleCipherError
  | NonceChoiceUndeteremined : SimpleCipherError
  | NonceTooLong : Nat → SimpleCipherError
deriving DecidableEq

/-- The `CommonEncryptionOpts` structure.  `key` and `nonce` hold the bytes of
the corresponding Rust strings; the `encrypted_file` path is dropped because
the file content itself is passed to `encrypt` and `decrypt` explicitly. -/
structure CommonEncryptionOpts where
  key : List Nat
  no_nonce : Bool
  generate_nonce : Bool
  nonce : Option (List Nat)
deriving DecidableEq

/-- Source `CommonEncryptionOpts::get_key_from_string`: rejects passphrases of
more than 32 bytes, otherwise zero-pads the bytes on the right to 32. -/
def CommonEncryptionOpts.get_key_from_string (o : CommonEncryptionOpts) :
    Except SimpleCipherError (List Nat) :=
  if o.key.length > MAX_KEY_LENGTH then .error (.KeyTooLong o.key.length)
  else .ok (o.key ++ List.replicate (MAX_KEY_LENGTH - o.key.length) 0)

/-- Source `CommonEncryptionOpts::stringify_nonce`: each nonce byte is cast to
a `char` and the chars are collected into a `String`; as bytes, that string is
the concatenated UTF-8 encodings of the byte values. -/
def stringify_nonce (nonce : List Nat) : List Nat :=
  ((nonce.map fun val => val % 256).map utf8EncodeChar).flatten

/-- Source `CommonEncryptionOpts::nonce_from_string`: rejects strings of more
than 24 bytes; otherwise each `char` of the string is cast to `u8` (truncation
modulo 256) and the resulting vector is zero-padded on the right to 24. -/
def nonce_from_string (nonce : List Nat) : Except SimpleCipherError (List Nat) :=
  if nonce.length > NONCE_LENGTH then .error (.NonceTooLong nonce.length)
  else
    let cs := (utf8Chars nonce).map fun v => v % 256
    .ok (cs ++ List.replicate (NONCE_LENGTH - cs.length) 0)

/-- The corpus `potential_nonce_chars` built in `CommonEncryptionOpts::nonce`:
each lowercase letter repeated `NONCE_LENGTH` times — except that the source
lists the letter o twice and omits the letter n. -/
def potential_nonce_chars : List Nat :=
  ([97, 98, 99, 100, 101, 102, 103, 104, 105, 106, 107, 108, 109,
    111, 111, 112, 113, 114, 115, 116, 117, 118, 119, 120, 121, 122].map
    fun c => List.replicate NONCE_LENGTH c).flatten

/-- The generated nonce of `CommonEncryptionOpts::nonce`: `choose_multiple`
picks `NONCE_LENGTH` positions of the corpus (modelled by the list `pick`),
the chars are collected into a `String` and its bytes form the nonce. -/
def generatedNonce (pick : List Nat) : List Nat :=
  ((pick.map fun i => potential_nonce_chars.getD i 0).map utf8EncodeChar).flatten

/-- Source `CommonEncryptionOpts::nonce` (renamed: the structure field `nonce`
takes that name in Lean).  The random generator is modelled by the `pick`
argument consumed by the generate branch. -/
def CommonEncryptionOpts.derive_nonce (o : CommonEncryptionOpts) (pick : List Nat) :
    Except SimpleCipherError (List Nat) :=
  if !o.no_nonce && o.nonce.isNone && !o.generate_nonce then
    .error .NonceChoiceUndeteremined
  else if o.no_nonce then .ok (List.replicate NONCE_LENGTH 0)
  else if o.generate_nonce then .ok (generatedNonce pick)
  else
    match o.nonce with
    | some nonce_string => nonce_from_string nonce_string
    | none => .error .NonceChoiceUndeteremined

/-- Source `CommonEncryptionOpts::encrypt`.  The write of the ciphertext to
`encrypted_file` is modelled by returning the ciphertext; the second component
is the optional stringified nonce the source returns. -/
def CommonEncryptionOpts.encrypt (o : CommonEncryptionOpts) (pick message : List Nat) :
    Except SimpleCipherError (List Nat × Option (List Nat)) :=
  match o.get_key_from_string with
  | .error e => .error e
  | .ok key =>
    match o.derive_nonce pick with
    | .error e => .error e
    | .ok n =>
      let ciphertext := sealAead key n message
      if o.generate_nonce then .ok (ciphertext, some (stringify_nonce n))
      else .ok (ciphertext, none)

/-- Source `CommonEncryptionOpts::decrypt`.  The read of `encrypted_file` is
modelled by the `file` argument; a failed AEAD opening is the transparent
`Chacha` error and an authenticated but invalid UTF-8 plaintext is the
transparent `Utf8Conversion` error. -/
def CommonEncryptionOpts.decrypt (o : CommonEncryptionOpts) (pick file : List Nat) :
    Except SimpleCipherError (List Nat) :=
  if o.generate_nonce then .error .NonceGenerate
  else
    match o.get_key_from_string with
    | .error e => .error e
    | .ok key =>
      match o.derive_nonce pick with
      | .error e => .error e
      | .ok n =>
        match openAead key n file with
        | none => .error .Chacha
        | some plaintext =>
          if validUtf8 plaintext then .ok plaintext
          else .error (.Utf8Conversion plaintext)

/-! ## Length lemmas for the cipher -/

theorem length_natToLEBytes (k w : Nat) : (natToLEBytes k w).length = k := by
  induction k generalizing w with
  | zero => rfl
  | succ k ih => simp [natToLEBytes, ih]

theorem length_qround (s : List Nat) (a b c d : Nat) :
    (qround s a b c d).length = s.length := by
  simp [qround]

theorem length_doubleRound (s : List Nat) : (doubleRound s).length = s.length := by
  simp [doubleRound, length_qround]

theorem length_chachaRounds (s : List Nat) (n : Nat) :
    (chachaRounds s n).length = s.length := by
  induction n generalizing s with
  | zero => rfl
  | succ n ih => simp [chachaRounds, ih, length_doubleRound]

theorem length_bytesToWords : ∀ l : List Nat, (bytesToWords l).length = l.length / 4
  | [] => by simp [bytesToWords]
  | [_] => by simp [bytesToWords]
  | [_, _] => by simp [bytesToWords]
  | [_, _, _] => by simp [bytesToWords]
  | _ :: _ :: _ :: _ :: rest => by
    simp only [bytesToWords, List.length_cons, length_bytesToWords rest]
    omega

theorem flatten_length_const (L : List (List Nat)) (k : Nat)
    (h : ∀ x ∈ L, x.length = k) : L.flatten.length = k * L.length := by
  induction L with
  | nil => simp
  | cons a L ih =>
    simp only [List.flatten_cons, List.length_append, List.length_cons]
    rw [h a (by simp), ih fun x hx => h x (by simp [hx])]
    ring

theorem length_wordsToBytes (ws : List Nat) : (wordsToBytes ws).length = 4 * ws.length := by
  unfold wordsToBytes
  rw [flatten_length_const _ 4, List.length_map]
  intro x hx
  obtain ⟨w, _, rfl⟩ := List.mem_map.mp hx
  exact length_natToLEBytes 4 w

theorem length_chachaInit (key : List Nat) (c : Nat) (n12 : List Nat)
    (hk : key.length = 32) (hn : n12.length = 12) :
    (chachaInit key c n12).length = 16 := by
  simp [chachaInit, chachaConsts, length_bytesToWords, hk, hn]

theorem length_chachaBlock (key : List Nat) (c : Nat) (n12 : List Nat)
    (hk : key.length = 32) (hn : n12.length = 12) :
    (chachaBlock key c n12).length = 64 := by
  simp [chachaBlock, length_wordsToBytes, List.length_zipWith, length_chachaRounds,
    length_chachaInit key c n12 hk hn]

theorem length_hchacha (key n16 : List Nat) (hk : key.length = 32) (hn : n16.length = 16) :
    (hchacha key n16).length = 32 := by
  have hinit : (chachaConsts ++ bytesToWords key ++ bytesToWords n16).length = 16 := by
    simp [chachaConsts, length_bytesToWords, hk, hn]
  simp only [hchacha, length_wordsToBytes, List.length_append, List.length_take,
    List.length_drop, length_chachaRounds, hinit]
  omega

theorem length_chachaKeystream (key n12 : List Nat) (c len : Nat)
    (hk : key.length = 32) (hn : n12.length = 12) :
    (chachaKeystream key n12 c len).length = len := by
  unfold chachaKeystream
  rw [List.length_take, flatten_length_const _ 64, List.length_map, List.length_range]
  · omega
  · intro x hx
    obtain ⟨i, _, rfl⟩ := List.mem_map.mp hx
    exact length_chachaBlock key (c + i) n12 hk hn

theorem zipWith_xor_cancel : ∀ l ks : List Nat, l.length ≤ ks.length →
    List.zipWith Nat.xor (List.zipWith Nat.xor l ks) ks = l
  | [], _, _ => by simp
  | _ :: _, [], h => by simp at h
  | a :: l, b :: ks, h => by
    simp only [List.zipWith_cons_cons]
    rw [zipWith_xor_cancel l ks (by simpa using h)]
    congr 1
    exact Nat.xor_cancel_right b a

/-- The AEAD round trip: opening a sealed ciphertext with the same key and
nonce releases exactly the sealed plaintext. -/
theorem openAead_sealAead (key n pt : List Nat) (hk : key.length = 32) (hn : n.length = 24) :
    openAead key n (sealAead key n pt) = some pt := by
  have htake16 : (n.take 16).length = 16 := by simp [List.length_take, hn]
  have hsk : (hchacha key (n.take 16)).length = 32 := length_hchacha _ _ hk htake16
  have hn12 : (([0, 0, 0, 0] ++ n.drop 16 : List Nat)).length = 12 := by
    simp [List.length_drop, hn]
  simp only [sealAead, openAead]
  set sk := hchacha key (n.take 16) with hsk_def
  set n12 := ([0, 0, 0, 0] ++ n.drop 16 : List Nat) with hn12_def
  have hks : ∀ len c, (chachaKeystream sk n12 c len).length = len :=
    fun len c => length_chachaKeystream sk n12 c len hsk hn12
  set ct := List.zipWith Nat.xor pt (chachaKeystream sk n12 1 pt.length) with hct_def
  have hct : ct.length = pt.length := by
    rw [hct_def, List.length_zipWith, hks]
    omega
  have htag : (aeadTag sk n12 ct).length = 16 := by
    simp [aeadTag, length_natToLEBytes]
  have hclen : (ct ++ aeadTag sk n12 ct).length = pt.length + 16 := by
    rw [List.length_append, hct, htag]
  rw [if_neg (by rw [hclen]; omega)]
  have h1 : (ct ++ aeadTag sk n12 ct).length - 16 = ct.length := by rw [hclen, hct]; omega
  rw [h1, List.take_left, List.drop_left, if_pos rfl, hct]
  exact congrArg some (zipWith_xor_cancel pt _ (Nat.le_of_eq (hks pt.length 1).symm))


/-! ## UTF-8 lemmas -/

set_option maxRecDepth 16384 in
theorem utf8Step_shrinks : ∀ (l : List Nat) (c : Nat) (r : List Nat),
    utf8Step l = some (c, r) → r.length < l.length := by
  intro l c r h
  match l with
  | [] => simp [utf8Step] at h
  | b :: rest =>
    rcases Nat.lt_or_ge b 128 with h1 | h1
    · have h2 : some (b, rest) = some (c, r) := by simpa [utf8Step, h1] using h
      cases h2
      simp only [List.length_cons]
      omega
    · have h1n : ¬ b < 128 := by omega
      by_cases h2 : 194 ≤ b ∧ b ≤ 223
      · rcases rest with _ | ⟨b2, rest2⟩
        · simp [utf8Step, h1n, h2] at h
        · by_cases h3 : 128 ≤ b2 ∧ b2 ≤ 191
          · have h4 : some ((b - 192) * 64 + (b2 - 128), rest2) = some (c, r) := by
              simpa [utf8Step, h1n, h2, h3] using h
            cases h4
            simp only [List.length_cons]
            omega
          · simp [utf8Step, h1n, h2, h3] at h
      · by_cases h3 : 224 ≤ b ∧ b ≤ 239
        · rcases rest with _ | ⟨b2, _ | ⟨b3, rest3⟩⟩
          · simp [utf8Step, h1n, h2, h3] at h
          · simp [utf8Step, h1n, h2, h3] at h
          · by_cases h4 : ((if b = 224 then 160 else 128) ≤ b2
                ∧ b2 ≤ (if b = 237 then 159 else 191)) ∧ 128 ≤ b3 ∧ b3 ≤ 191
            · have h5 : some ((b - 224) * 4096 + (b2 - 128) * 64 + (b3 - 128), rest3)
                  = some (c, r) := by
                simpa [utf8Step, h1n, h2, h3, h4] using h
              cases h5
              simp only [List.length_cons]
              omega
            · simp [utf8Step, h1n, h2, h3, h4] at h
        · by_cases h4 : 240 ≤ b ∧ b ≤ 244
          · rcases rest with _ | ⟨b2, _ | ⟨b3, _ | ⟨b4, rest4⟩⟩⟩
            · simp [utf8Step, h1n, h2, h3, h4] at h
            · simp [utf8Step, h1n, h2, h3, h4] at h
            · simp [utf8Step, h1n, h2, h3, h4] at h
            · by_cases h5 : ((if b = 240 then 144 else 128) ≤ b2
                  ∧ b2 ≤ (if b = 244 then 143 else 191))
                  ∧ (128 ≤ b3 ∧ b3 ≤ 191) ∧ 128 ≤ b4 ∧ b4 ≤ 191
              · have h6 : some ((b - 240) * 262144 + (b2 - 128) * 4096
                    + (b3 - 128) * 64 + (b4 - 128), rest4) = some (c, r) := by
                  simpa [utf8Step, h1n, h2, h3, h4, h5] using h
                cases h6
                simp only [List.length_cons]
                omega
              · simp [utf8Step, h1n, h2, h3, h4, h5] at h
          · simp [utf8Step, h1n, h2, h3, h4] at h

theorem utf8DecodeF_mono : ∀ (f1 : Nat) (l : List Nat) (f2 : Nat),
    l.length ≤ f1 → l.length ≤ f2 → utf8DecodeF f1 l = utf8DecodeF f2 l := by
  intro f1
  induction f1 with
  | zero =>
    intro l f2 h1 h2
    have hl : l = [] := by
      cases l with
      | nil => rfl
      | cons b rest => simp at h1
    subst hl
    cases f2 <;> rfl
  | succ f1 ih =>
    intro l f2 h1 h2
    cases l with
    | nil => cases f2 <;> rfl
    | cons b rest =>
      cases f2 with
      | zero => simp at h2
      | succ f2 =>
        simp only [utf8DecodeF]
        cases hs : utf8Step (b :: rest) with
        | none => rfl
        | some pr =>
          obtain ⟨c, rest2⟩ := pr
          have hlt := utf8Step_shrinks _ _ _ hs
          simp only [List.length_cons] at h1 h2 hlt
          show Option.map (fun cs => c :: cs) (utf8DecodeF f1 rest2)
              = Option.map (fun cs => c :: cs) (utf8DecodeF f2 rest2)
          rw [ih rest2 f2 (by omega) (by omega)]

theorem utf8DecodeF_length : ∀ (f : Nat) (l cs : List Nat),
    utf8DecodeF f l = some cs → cs.length ≤ l.length := by
  intro f
  induction f with
  | zero =>
    intro l cs h
    cases l with
    | nil =>
      cases h
      simp
    | cons b rest => cases h
  | succ f ih =>
    intro l cs h
    cases l with
    | nil =>
      cases h
      simp
    | cons b rest =>
      simp only [utf8DecodeF] at h
      cases hs : utf8Step (b :: rest) with
      | none => simp [hs] at h
      | some pr =>
        obtain ⟨c, rest2⟩ := pr
        simp only [hs] at h
        obtain ⟨cs0, hd, hcs⟩ := Option.map_eq_some'.mp h
        subst hcs
        have hlen := ih rest2 cs0 hd
        have hlt := utf8Step_shrinks _ _ _ hs
        simp only [List.length_cons] at hlt ⊢
        omega

/-- Each decoded code point consumes at least one byte, so a string has at
most as many chars as bytes. -/
theorem utf8Decode_length (l cs : List Nat) (h : utf8Decode l = some cs) :
    cs.length ≤ l.length :=
  utf8DecodeF_length l.length l cs h

theorem utf8Step_ascii (b : Nat) (rest : List Nat) (hb : b < 128) :
    utf8Step (b :: rest) = some (b, rest) := by
  simp [utf8Step, hb]

theorem utf8DecodeF_ascii : ∀ (l : List Nat), (∀ b ∈ l, b < 128) →
    ∀ f, l.length ≤ f → utf8DecodeF f l = some l := by
  intro l
  induction l with
  | nil =>
    intro _ f _
    cases f <;> rfl
  | cons b rest ih =>
    intro h f hf
    cases f with
    | zero => simp at hf
    | succ f =>
      have hb : b < 128 := h b (by simp)
      simp only [utf8DecodeF, utf8Step_ascii b rest hb]
      rw [ih (fun x hx => h x (by simp [hx])) f (by simp at hf ⊢; omega)]
      rfl

/-- An all-ASCII byte list decodes to itself. -/
theorem utf8Decode_ascii (l : List Nat) (h : ∀ b ∈ l, b < 128) :
    utf8Decode l = some l :=
  utf8DecodeF_ascii l h l.length (Nat.le_refl _)

theorem utf8Chars_ascii (l : List Nat) (h : ∀ b ∈ l, b < 128) : utf8Chars l = l := by
  simp [utf8Chars, utf8Decode_ascii l h]

theorem validUtf8_ascii (l : List Nat) (h : ∀ b ∈ l, b < 128) : validUtf8 l = true := by
  simp [validUtf8, utf8Decode_ascii l h]

theorem utf8Chars_length (l : List Nat) : (utf8Chars l).length ≤ l.length := by
  unfold utf8Chars
  cases hd : utf8Decode l with
  | none => simp
  | some cs => simpa using utf8Decode_length l cs hd

theorem utf8EncodeChar_ascii (c : Nat) (h : c < 128) : utf8EncodeChar c = [c] := by
  simp [utf8EncodeChar, h]

/-- On an all-ASCII byte list, `stringify_nonce` is the identity: the string
of the cast chars has exactly the original bytes. -/
theorem stringify_nonce_ascii : ∀ l : List Nat, (∀ b ∈ l, b < 128) → stringify_nonce l = l
  | [], _ => rfl
  | b :: rest, h => by
    have hb : b < 128 := h b (by simp)
    have ih := stringify_nonce_ascii rest fun x hx => h x (by simp [hx])
    simp only [stringify_nonce, List.map_cons, List.flatten_cons] at ih ⊢
    rw [Nat.mod_eq_of_lt (by omega), utf8EncodeChar_ascii b hb, ih]
    rfl

/-! ## Helper lemmas about the repository functions -/

theorem get_key_ok (o : CommonEncryptionOpts) (h : o.key.length ≤ 32) :
    o.get_key_from_string = .ok (o.key ++ List.replicate (32 - o.key.length) 0) := by
  simp [CommonEncryptionOpts.get_key_from_string, MAX_KEY_LENGTH, Nat.not_lt.mpr h]

theorem get_key_err (o : CommonEncryptionOpts) (h : 32 < o.key.length) :
    o.get_key_from_string = .error (.KeyTooLong o.key.length) := by
  simp [CommonEncryptionOpts.get_key_from_string, MAX_KEY_LENGTH, h]

theorem paddedKey_length (k : List Nat) (h : k.length ≤ 32) :
    (k ++ List.replicate (32 - k.length) 0).length = 32 := by
  simp
  omega

theorem derive_nonce_all_zero (o : CommonEncryptionOpts) (pick : List Nat)
    (h : o.no_nonce = true) : o.derive_nonce pick = .ok (List.replicate 24 0) := by
  simp [CommonEncryptionOpts.derive_nonce, h, NONCE_LENGTH]

theorem derive_nonce_generate (o : CommonEncryptionOpts) (pick : List Nat)
    (h1 : o.no_nonce = false) (h2 : o.generate_nonce = true) :
    o.derive_nonce pick = .ok (generatedNonce pick) := by
  simp [CommonEncryptionOpts.derive_nonce, h1, h2]

theorem derive_nonce_string (o : CommonEncryptionOpts) (pick s : List Nat)
    (h1 : o.no_nonce = false) (h2 : o.generate_nonce = false) (h3 : o.nonce = some s) :
    o.derive_nonce pick = nonce_from_string s := by
  simp [CommonEncryptionOpts.derive_nonce, h1, h2, h3]

theorem derive_nonce_undetermined (o : CommonEncryptionOpts) (pick : List Nat)
    (h1 : o.no_nonce = false) (h2 : o.generate_nonce = false) (h3 : o.nonce = none) :
    o.derive_nonce pick = .error .NonceChoiceUndeteremined := by
  simp [CommonEncryptionOpts.derive_nonce, h1, h2, h3]

theorem nonce_from_string_ok (s : List Nat) (h : s.length ≤ 24) :
    nonce_from_string s =
      .ok ((utf8Chars s).map (fun v => v % 256)
        ++ List.replicate (24 - ((utf8Chars s).map (fun v => v % 256)).length) 0) := by
  simp [nonce_from_string, NONCE_LENGTH, Nat.not_lt.mpr h]

theorem nonce_from_string_err (s : List Nat) (h : 24 < s.length) :
    nonce_from_string s = .error (.NonceTooLong s.length) := by
  simp [nonce_from_string, NONCE_LENGTH, h]

theorem nonce_from_string_ok_length (s : List Nat) (h : s.length ≤ 24) :
    ∃ v, nonce_from_string s = .ok v ∧ v.length = 24 := by
  refine ⟨_, nonce_from_string_ok s h, ?_⟩
  have hc : ((utf8Chars s).map (fun v => v % 256)).length ≤ 24 := by
    rw [List.length_map]
    exact Nat.le_trans (utf8Chars_length s) h
  rw [List.length_append, List.length_replicate]
  omega

set_option maxRecDepth 100000 in
theorem potential_nonce_chars_mem :
    ∀ c ∈ potential_nonce_chars, 97 ≤ c ∧ c ≤ 122 ∧ c ≠ 110 := by decide

set_option maxRecDepth 100000 in
theorem potential_nonce_chars_length : potential_nonce_chars.length = 624 := by decide

theorem getD_zero_or_mem (l : List Nat) (i : Nat) : l.getD i 0 = 0 ∨ l.getD i 0 ∈ l := by
  by_cases h : i < l.length
  · right
    rw [List.getD_eq_getElem l 0 h]
    exact List.getElem_mem h
  · left
    rw [List.getD_eq_getElem?_getD, List.getElem?_eq_none (Nat.le_of_not_lt h)]
    rfl

/-- Membership of the picked corpus letter, for in-range picks. -/
theorem corpus_getD_mem (i : Nat) (hi : i < 624) :
    potential_nonce_chars.getD i 0 ∈ potential_nonce_chars := by
  rw [List.getD_eq_getElem potential_nonce_chars 0
    (by rw [potential_nonce_chars_length]; omega)]
  exact List.getElem_mem _

/-- Every byte of any generated nonce is either zero (an out-of-range pick,
which never happens for real picks) or a corpus letter. -/
theorem generatedNonce_mem (pick : List Nat) (b : Nat) (hb : b ∈ generatedNonce pick) :
    b = 0 ∨ (97 ≤ b ∧ b ≤ 122 ∧ b ≠ 110) := by
  simp only [generatedNonce, List.mem_flatten, List.mem_map] at hb
  obtain ⟨l, ⟨c, ⟨i, hi, rfl⟩, rfl⟩, hbl⟩ := hb
  rcases getD_zero_or_mem potential_nonce_chars i with h0 | hmem
  · rw [h0, utf8EncodeChar_ascii 0 (by omega)] at hbl
    rcases List.mem_singleton.mp hbl with rfl
    exact Or.inl rfl
  · have hrange := potential_nonce_chars_mem _ hmem
    rw [utf8EncodeChar_ascii _ (by omega)] at hbl
    rcases List.mem_singleton.mp hbl with rfl
    exact Or.inr hrange

/-- For in-range picks the generated nonce is exactly the picked corpus
letters, one byte per pick. -/
theorem generatedNonce_eq (pick : List Nat) (h : ∀ i ∈ pick, i < 624) :
    generatedNonce pick = pick.map fun i => potential_nonce_chars.getD i 0 := by
  unfold generatedNonce
  induction pick with
  | nil => rfl
  | cons i pick ih =>
    simp only [List.map_cons, List.flatten_cons]
    have hmem := corpus_getD_mem i (h i (by simp))
    have hrange := potential_nonce_chars_mem _ hmem
    rw [utf8EncodeChar_ascii _ (by omega)]
    rw [ih fun j hj => h j (by simp [hj])]
    rfl

theorem generatedNonce_length (pick : List Nat) (h : ∀ i ∈ pick, i < 624) :
    (generatedNonce pick).length = pick.length := by
  rw [generatedNonce_eq pick h, List.length_map]

theorem generatedNonce_bytes (pick : List Nat) (h : ∀ i ∈ pick, i < 624) :
    ∀ b ∈ generatedNonce pick, 97 ≤ b ∧ b ≤ 122 ∧ b ≠ 110 := by
  intro b hb
  rw [generatedNonce_eq pick h, List.mem_map] at hb
  obtain ⟨i, hi, rfl⟩ := hb
  exact potential_nonce_chars_mem _ (corpus_getD_mem i (h i hi))

/-! ## More helper lemmas -/

/-- A 24-byte ASCII string passed as a nonce string derives to exactly its
own bytes. -/
theorem nonce_from_string_ascii24 (v : List Nat) (hv : ∀ b ∈ v, b < 128)
    (h24 : v.length = 24) : nonce_from_string v = .ok v := by
  rw [nonce_from_string_ok v (by omega)]
  rw [utf8Chars_ascii v hv]
  have hmap : v.map (fun x => x % 256) = v := by
    calc v.map (fun x => x % 256)
        = v.map id := List.map_congr_left fun b hb =>
          Nat.mod_eq_of_lt (by have := hv b hb; omega)
      _ = v := List.map_id v
  rw [hmap, h24]
  simp

theorem derive_nonce_error_shape (o : CommonEncryptionOpts) (pick : List Nat)
    (e : SimpleCipherError) (h : o.derive_nonce pick = .error e) :
    e = .NonceChoiceUndeteremined ∨ ∃ n, e = .NonceTooLong n := by
  by_cases h1 : o.no_nonce = true
  · rw [derive_nonce_all_zero o pick h1] at h
    cases h
  · have h1f : o.no_nonce = false := by simpa using h1
    by_cases h2 : o.generate_nonce = true
    · rw [derive_nonce_generate o pick h1f h2] at h
      cases h
    · have h2f : o.generate_nonce = false := by simpa using h2
      cases h3 : o.nonce with
      | none =>
        rw [derive_nonce_undetermined o pick h1f h2f h3] at h
        cases h
        exact Or.inl rfl
      | some s =>
        rw [derive_nonce_string o pick s h1f h2f h3] at h
        by_cases h4 : 24 < s.length
        · rw [nonce_from_string_err s h4] at h
          cases h
          exact Or.inr ⟨s.length, rfl⟩
        · rw [nonce_from_string_ok s (by omega)] at h
          cases h

/-! ## Claims -/

/-- Claim C3: key derivation from a passphrase fails iff the passphrase byte
length exceeds 32, failing with `KeyTooLong` carrying that length; on success
the key is exactly the passphrase bytes zero-padded on the right to 32 bytes
(so a 32-byte passphrase succeeds and a 33-byte one fails with
`KeyTooLong 33`, as the witness instantiates). -/
theorem claim_C3 (o : CommonEncryptionOpts) :
    (32 < o.key.length →
      o.get_key_from_string = .error (.KeyTooLong o.key.length)) ∧
    (o.key.length ≤ 32 →
      o.get_key_from_string = .ok (o.key ++ List.replicate (32 - o.key.length) 0) ∧
      (o.key ++ List.replicate (32 - o.key.length) 0).length = 32) :=
  ⟨get_key_err o, fun h => ⟨get_key_ok o h, paddedKey_length o.key h⟩⟩

/-- Claim C3 witness: the boundary instances, a 33-byte passphrase fails with
`KeyTooLong 33` and a 32-byte passphrase succeeds with the unpadded key. -/
theorem claim_C3_witness :
    (32 < (List.replicate 33 97 : List Nat).length ∧
      (⟨List.replicate 33 97, false, false, none⟩ : CommonEncryptionOpts).get_key_from_string
        = .error (.KeyTooLong 33)) ∧
    ((List.replicate 32 97 : List Nat).length ≤ 32 ∧
      (⟨List.replicate 32 97, false, false, none⟩ : CommonEncryptionOpts).get_key_from_string
        = .ok (List.replicate 32 97)) := by
  refine ⟨⟨by decide, ?_⟩, ⟨by decide, ?_⟩⟩
  · have h := (claim_C3 ⟨List.replicate 33 97, false, false, none⟩).1 (by decide)
    simpa using h
  · have h := ((claim_C3 ⟨List.replicate 32 97, false, false, none⟩).2 (by decide)).1
    simpa using h

/-- Claim C4 counterexample: the claim says the derived nonce is exactly the
bytes of the string right-padded to 24.  The two-byte string for the letter
e-acute (bytes 195, 169) is valid UTF-8 of length 2 and is accepted, but the
derived nonce starts with the char code point truncated to a byte (233), not
with the bytes 195, 169 of the string. -/
theorem claim_C4_counterexample :
    validUtf8 [195, 169] = true ∧
    nonce_from_string [195, 169] = .ok (233 :: List.replicate 23 0) ∧
    233 :: List.replicate 23 0 ≠ [195, 169] ++ List.replicate 22 0 :=
  ⟨by decide, rfl, by decide⟩

/-- Claim C4 (amended): deriving a nonce from a string fails with
`NonceTooLong` carrying the byte length iff the string is longer than 24
bytes; otherwise the derived nonce is the list of chars of the string, each
cast to a byte by truncation modulo 256, right-padded with zero bytes to 24
bytes (in particular a 24-byte string succeeds and a 25-byte string fails
with `NonceTooLong 25`, as the witness instantiates). -/
theorem claim_C4_amended (s : List Nat) :
    (24 < s.length → nonce_from_string s = .error (.NonceTooLong s.length)) ∧
    (s.length ≤ 24 →
      nonce_from_string s =
        .ok ((utf8Chars s).map (fun v => v % 256)
          ++ List.replicate (24 - ((utf8Chars s).map fun v => v % 256).length) 0) ∧
      ∃ v, nonce_from_string s = .ok v ∧ v.length = 24) :=
  ⟨nonce_from_string_err s,
    fun h => ⟨nonce_from_string_ok s h, nonce_from_string_ok_length s h⟩⟩

/-- Claim C4 witness: the boundary instances, a 25-byte string fails with
`NonceTooLong 25` and a 24-byte ASCII string succeeds. -/
theorem claim_C4_witness :
    (24 < (List.replicate 25 97 : List Nat).length ∧
      nonce_from_string (List.replicate 25 97) = .error (.NonceTooLong 25)) ∧
    ((List.replicate 24 97 : List Nat).length ≤ 24 ∧
      nonce_from_string (List.replicate 24 97) = .ok (List.replicate 24 97)) := by
  refine ⟨⟨by decide, ?_⟩, ⟨by decide, ?_⟩⟩
  · have h := (claim_C4_amended (List.replicate 25 97)).1 (by decide)
    simpa using h
  · have h := ((claim_C4_amended (List.replicate 24 97)).2 (by decide)).1
    rw [h]
    rfl

/-- Claim C6 counterexample: a call requesting several nonce sources at once
(all zeros, generation and a nonce string together) is accepted rather than
rejected: it returns the all-zero nonce. -/
theorem claim_C6_counterexample :
    (CommonEncryptionOpts.derive_nonce ⟨[], true, true, some (List.replicate 24 97)⟩ [])
      = .ok (List.replicate 24 0) := rfl

/-- Claim C6 (amended): nonce selection fails with `NonceChoiceUndeteremined`
iff no source at all is selected; a call requesting several sources at once is
accepted, with precedence all-zero, then generate, then the user string. -/
theorem claim_C6_amended (o : CommonEncryptionOpts) (pick : List Nat) :
    (o.derive_nonce pick = .error .NonceChoiceUndeteremined ↔
      o.no_nonce = false ∧ o.generate_nonce = false ∧ o.nonce = none) ∧
    (o.no_nonce = true → o.derive_nonce pick = .ok (List.replicate 24 0)) ∧
    (o.no_nonce = false → o.generate_nonce = true →
      o.derive_nonce pick = .ok (generatedNonce pick)) ∧
    (∀ s, o.no_nonce = false → o.generate_nonce = false → o.nonce = some s →
      o.derive_nonce pick = nonce_from_string s) := by
  refine ⟨⟨?_, fun ⟨h1, h2, h3⟩ => derive_nonce_undetermined o pick h1 h2 h3⟩,
    derive_nonce_all_zero o pick, derive_nonce_generate o pick,
    fun s h1 h2 h3 => derive_nonce_string o pick s h1 h2 h3⟩
  intro h
  by_cases h1 : o.no_nonce = true
  · rw [derive_nonce_all_zero o pick h1] at h
    cases h
  · have h1f : o.no_nonce = false := by simpa using h1
    by_cases h2 : o.generate_nonce = true
    · rw [derive_nonce_generate o pick h1f h2] at h
      cases h
    · have h2f : o.generate_nonce = false := by simpa using h2
      cases h3 : o.nonce with
      | none => exact ⟨h1f, h2f, rfl⟩
      | some s =>
        rw [derive_nonce_string o pick s h1f h2f h3] at h
        by_cases h4 : 24 < s.length
        · rw [nonce_from_string_err s h4] at h
          cases h
        · rw [nonce_from_string_ok s (by omega)] at h
          cases h

/-- Claim C6 witness: generation and a nonce string selected together are
accepted (the generated nonce wins), and selecting nothing is the error. -/
theorem claim_C6_witness :
    (CommonEncryptionOpts.derive_nonce ⟨[], false, true, some (List.replicate 24 98)⟩ [0]
      = .ok (generatedNonce [0])) ∧
    (CommonEncryptionOpts.derive_nonce ⟨[], false, false, none⟩ []
      = .error .NonceChoiceUndeteremined) :=
  ⟨(claim_C6_amended ⟨[], false, true, some (List.replicate 24 98)⟩ [0]).2.2.1 rfl rfl,
    (claim_C6_amended ⟨[], false, false, none⟩ []).1.mpr ⟨rfl, rfl, rfl⟩⟩

/-- Claim C9: requesting nonce generation during decryption always fails with
the `NonceGenerate` error (the variant the spec calls
`NonceGenerateNotSupported`), whatever the key, the pick and the file bytes:
nothing else of the call is attempted, so not even an over-long key changes
the outcome. -/
theorem claim_C9 (o : CommonEncryptionOpts) (pick file : List Nat)
    (h : o.generate_nonce = true) : o.decrypt pick file = .error .NonceGenerate := by
  simp [CommonEncryptionOpts.decrypt, h]

/-- Claim C9 witness: even with a 40-byte key (which key derivation would
reject) and garbage file bytes, decrypt with generation selected returns the
generation error, not the key error. -/
theorem claim_C9_witness :
    (⟨List.replicate 40 97, false, true, none⟩ : CommonEncryptionOpts).decrypt [] [1, 2, 3]
      = .error .NonceGenerate :=
  claim_C9 ⟨List.replicate 40 97, false, true, none⟩ [] [1, 2, 3] rfl

/-- Claim C10: for any in-range pick of 24 corpus positions, the generated
nonce consists of 24 bytes, each an ASCII lowercase letter (hence also
printable ASCII, between 33 and 126), and the byte 110 (the letter n, which
the corpus omits) never occurs. -/
theorem claim_C10 (pick : List Nat) (hlen : pick.length = 24)
    (hpick : ∀ i ∈ pick, i < 624) :
    (generatedNonce pick).length = 24 ∧
    (∀ b ∈ generatedNonce pick, (97 ≤ b ∧ b ≤ 122) ∧ 33 ≤ b ∧ b ≤ 126) ∧
    110 ∉ generatedNonce pick := by
  refine ⟨by rw [generatedNonce_length pick hpick, hlen], ?_, ?_⟩
  · intro b hbm
    have h := generatedNonce_bytes pick hpick b hbm
    exact ⟨⟨h.1, h.2.1⟩, by omega, by omega⟩
  · intro hmem
    exact (generatedNonce_bytes pick hpick 110 hmem).2.2 rfl

/-- Claim C10 witness: the pick of the first 24 corpus positions. -/
theorem claim_C10_witness :
    ((List.range 24).length = 24 ∧ (∀ i ∈ List.range 24, i < 624)) ∧
    ((generatedNonce (List.range 24)).length = 24 ∧
      (∀ b ∈ generatedNonce (List.range 24), (97 ≤ b ∧ b ≤ 122) ∧ 33 ≤ b ∧ b ≤ 126) ∧
      110 ∉ generatedNonce (List.range 24)) :=
  ⟨⟨by decide, by decide⟩, claim_C10 (List.range 24) (by decide) (by decide)⟩

/-- Claim C5 counterexample: the claim says every 24-byte value is a possible
generated nonce (as a direct read of random bytes would give).  In this code
no pick whatsoever produces the nonce consisting of 24 copies of the byte 110
(the letter n): generation is the letter-shuffle scheme over a corpus that
omits that letter, not a direct random-byte read. -/
theorem claim_C5_counterexample :
    ¬ ∃ pick : List Nat, generatedNonce pick = List.replicate 24 110 := by
  rintro ⟨pick, h⟩
  have hmem : (110 : Nat) ∈ generatedNonce pick := by
    rw [h]
    simp [List.mem_replicate]
  rcases generatedNonce_mem pick 110 hmem with h0 | hr
  · exact absurd h0 (by omega)
  · exact hr.2.2 rfl

/-- Claim C5 (amended): with the generate source selected (and the all-zero
source not), encryption-side nonce derivation always succeeds and returns the
24 bytes picked by the letter-shuffle scheme from the repeated-letter corpus;
the value is representable as a string that can be supplied again: its
stringification is the same 24 bytes and feeding that string back to nonce
derivation returns exactly the same nonce. -/
theorem claim_C5_amended (o : CommonEncryptionOpts) (pick : List Nat)
    (h1 : o.no_nonce = false) (h2 : o.generate_nonce = true)
    (hlen : pick.length = 24) (hpick : ∀ i ∈ pick, i < 624) :
    o.derive_nonce pick = .ok (generatedNonce pick) ∧
    (generatedNonce pick).length = 24 ∧
    stringify_nonce (generatedNonce pick) = generatedNonce pick ∧
    nonce_from_string (stringify_nonce (generatedNonce pick))
      = .ok (generatedNonce pick) := by
  have hbytes := generatedNonce_bytes pick hpick
  have hascii : ∀ b ∈ generatedNonce pick, b < 128 := fun b hb => by
    have := hbytes b hb
    omega
  have hlen24 : (generatedNonce pick).length = 24 := by
    rw [generatedNonce_length pick hpick, hlen]
  have hstr := stringify_nonce_ascii (generatedNonce pick) hascii
  refine ⟨derive_nonce_generate o pick h1 h2, hlen24, hstr, ?_⟩
  rw [hstr]
  exact nonce_from_string_ascii24 _ hascii hlen24

/-- Claim C5 witness: the pick of the first 24 corpus positions, on options
with only the generate source selected. -/
theorem claim_C5_witness :
    ((List.range 24).length = 24 ∧ (∀ i ∈ List.range 24, i < 624)) ∧
    ((⟨[], false, true, none⟩ : CommonEncryptionOpts).derive_nonce (List.range 24)
        = .ok (generatedNonce (List.range 24)) ∧
      (generatedNonce (List.range 24)).length = 24 ∧
      stringify_nonce (generatedNonce (List.range 24)) = generatedNonce (List.range 24) ∧
      nonce_from_string (stringify_nonce (generatedNonce (List.range 24)))
        = .ok (generatedNonce (List.range 24))) :=
  ⟨⟨by decide, by decide⟩,
    claim_C5_amended ⟨[], false, true, none⟩ (List.range 24) rfl rfl (by decide) (by decide)⟩

/-- Claim C8: sealing is deterministic: with the all-zero nonce selection,
encrypting the same key and message gives the seal of the padded key, the
all-zero nonce and the message — independently of the random pick, so two
encryptions of the same key and message produce identical ciphertext. -/
theorem claim_C8 (k m pick1 pick2 : List Nat) (hk : k.length ≤ 32) :
    (⟨k, true, false, none⟩ : CommonEncryptionOpts).encrypt pick1 m
      = .ok (sealAead (k ++ List.replicate (32 - k.length) 0) (List.replicate 24 0) m,
          none) ∧
    (⟨k, true, false, none⟩ : CommonEncryptionOpts).encrypt pick1 m
      = (⟨k, true, false, none⟩ : CommonEncryptionOpts).encrypt pick2 m := by
  have h : ∀ pick : List Nat,
      (⟨k, true, false, none⟩ : CommonEncryptionOpts).encrypt pick m
        = .ok (sealAead (k ++ List.replicate (32 - k.length) 0) (List.replicate 24 0) m,
            none) := by
    intro pick
    have hkey := get_key_ok ⟨k, true, false, none⟩ hk
    have hn := derive_nonce_all_zero ⟨k, true, false, none⟩ pick rfl
    simp [CommonEncryptionOpts.encrypt, hkey, hn]
  exact ⟨h pick1, (h pick1).trans (h pick2).symm⟩

/-- Claim C8 witness: the key baz and message foobar (as byte lists), sealed
twice with distinct picks. -/
theorem claim_C8_witness :
    ([98, 97, 122] : List Nat).length ≤ 32 ∧
    ((⟨[98, 97, 122], true, false, none⟩ : CommonEncryptionOpts).encrypt []
        [102, 111, 111, 98, 97, 114]
      = .ok (sealAead ([98, 97, 122] ++ List.replicate (32 - ([98, 97, 122] : List Nat).length) 0)
          (List.replicate 24 0) [102, 111, 111, 98, 97, 114], none) ∧
    (⟨[98, 97, 122], true, false, none⟩ : CommonEncryptionOpts).encrypt []
        [102, 111, 111, 98, 97, 114]
      = (⟨[98, 97, 122], true, false, none⟩ : CommonEncryptionOpts).encrypt [5]
        [102, 111, 111, 98, 97, 114]) :=
  ⟨by decide, claim_C8 [98, 97, 122] [102, 111, 111, 98, 97, 114] [] [5] (by decide)⟩

/-- Claim C7: a `Utf8Conversion` error from decrypt (the error the spec calls
`InvalidEncoding`) is a distinct value from the authentication-failure error,
and is only reachable after successful authentication: it implies the key and
nonce derived, the AEAD opening succeeded and released exactly the reported
bytes, and those bytes are not valid UTF-8. -/
theorem claim_C7 (o : CommonEncryptionOpts) (pick file pt : List Nat)
    (h : o.decrypt pick file = .error (.Utf8Conversion pt)) :
    (∃ key n, o.get_key_from_string = .ok key ∧ o.derive_nonce pick = .ok n ∧
      openAead key n file = some pt ∧ validUtf8 pt = false) ∧
    SimpleCipherError.Utf8Conversion pt ≠ SimpleCipherError.Chacha := by
  refine ⟨?_, by simp⟩
  by_cases hg : o.generate_nonce = true
  · simp [CommonEncryptionOpts.decrypt, hg] at h
  · have hgf : o.generate_nonce = false := by simpa using hg
    cases hkey : o.get_key_from_string with
    | error e =>
      simp only [CommonEncryptionOpts.decrypt, hgf, hkey, Bool.false_eq_true,
        if_false] at h
      rcases le_or_lt o.key.length 32 with hl | hl
      · rw [get_key_ok o hl] at hkey
        cases hkey
      · rw [get_key_err o hl] at hkey
        cases hkey
        simp at h
    | ok key =>
      simp only [CommonEncryptionOpts.decrypt, hgf, hkey, Bool.false_eq_true,
        if_false] at h
      cases hn : o.derive_nonce pick with
      | error e =>
        simp only [hn] at h
        cases h
        rcases derive_nonce_error_shape o pick _ hn with h1 | ⟨n, h2⟩
        · cases h1
        · cases h2
      | ok n =>
        simp only [hn] at h
        cases hop : openAead key n file with
        | none =>
          simp only [hop] at h
          simp at h
        | some pt0 =>
          simp only [hop] at h
          by_cases hv : validUtf8 pt0 = true
          · simp [hv] at h
          · have hvf : validUtf8 pt0 = false := by simpa using hv
            simp [hvf] at h
            subst h
            exact ⟨key, n, rfl, rfl, hop, hvf⟩

/-- Decrypt reports the invalid encoding when opening succeeds on bytes that
are not valid UTF-8. -/
theorem decrypt_open_invalid (o : CommonEncryptionOpts) (pick file key n pt : List Nat)
    (hg : o.generate_nonce = false) (hkey : o.get_key_from_string = .ok key)
    (hn : o.derive_nonce pick = .ok n) (hop : openAead key n file = some pt)
    (hv : validUtf8 pt = false) :
    o.decrypt pick file = .error (.Utf8Conversion pt) := by
  simp [CommonEncryptionOpts.decrypt, hg, hkey, hn, hop, hv]

/-- Claim C7 witness: sealing the single invalid byte 255 under the all-zero
nonce and zero-padded empty key, then decrypting it, authenticates and then
fails with the distinct `Utf8Conversion` error carrying those bytes. -/
theorem claim_C7_witness :
    ((⟨[], true, false, none⟩ : CommonEncryptionOpts).decrypt []
        (sealAead (List.replicate 32 0) (List.replicate 24 0) [255])
      = .error (.Utf8Conversion [255])) ∧
    (∃ key n, (⟨[], true, false, none⟩ : CommonEncryptionOpts).get_key_from_string = .ok key ∧
      (⟨[], true, false, none⟩ : CommonEncryptionOpts).derive_nonce [] = .ok n ∧
      openAead key n (sealAead (List.replicate 32 0) (List.replicate 24 0) [255])
        = some [255] ∧
      validUtf8 [255] = false) ∧
    SimpleCipherError.Utf8Conversion [255] ≠ SimpleCipherError.Chacha := by
  have hkey : (⟨[], true, false, none⟩ : CommonEncryptionOpts).get_key_from_string
      = .ok (List.replicate 32 0) := by
    rw [get_key_ok (⟨[], true, false, none⟩ : CommonEncryptionOpts) (by decide)]
    rfl
  have hn := derive_nonce_all_zero (⟨[], true, false, none⟩ : CommonEncryptionOpts) [] rfl
  have hopen := openAead_sealAead (List.replicate 32 0) (List.replicate 24 0) [255]
    (by decide) (by decide)
  have hv : validUtf8 [255] = false := by decide
  have hd := decrypt_open_invalid (⟨[], true, false, none⟩ : CommonEncryptionOpts) []
    (sealAead (List.replicate 32 0) (List.replicate 24 0) [255])
    (List.replicate 32 0) (List.replicate 24 0) [255] rfl hkey hn hopen hv
  exact ⟨hd, claim_C7 ⟨[], true, false, none⟩ [] _ [255] hd⟩

/-- Decrypt releases the plaintext when opening succeeds on valid UTF-8. -/
theorem decrypt_open_ok (o : CommonEncryptionOpts) (pick file key n pt : List Nat)
    (hg : o.generate_nonce = false) (hkey : o.get_key_from_string = .ok key)
    (hn : o.derive_nonce pick = .ok n) (hop : openAead key n file = some pt)
    (hv : validUtf8 pt = true) :
    o.decrypt pick file = .ok pt := by
  simp [CommonEncryptionOpts.decrypt, hg, hkey, hn, hop, hv]

/-- Encrypt seals with the derived key and nonce, returning the stringified
nonce exactly when generation was selected. -/
theorem encrypt_ok (o : CommonEncryptionOpts) (pick m key n : List Nat)
    (hkey : o.get_key_from_string = .ok key) (hn : o.derive_nonce pick = .ok n) :
    o.encrypt pick m = .ok (sealAead key n m,
      if o.generate_nonce then some (stringify_nonce n) else none) := by
  by_cases hg : o.generate_nonce = true
  · simp [CommonEncryptionOpts.encrypt, hkey, hn, hg]
  · have hgf : o.generate_nonce = false := by simpa using hg
    simp [CommonEncryptionOpts.encrypt, hkey, hn, hgf]

/-- Claim C1: the round trip.  For every passphrase of at most 32 bytes and
every message, under each of the three valid nonce selections — all-zero, a
user string of at most 24 bytes, or generation (any in-range pick of 24
corpus positions) — encryption succeeds and decrypting the produced
ciphertext with the same passphrase and the resolved nonce (for generation,
the nonce string returned by encrypt) returns exactly the message. -/
theorem claim_C1 (k m : List Nat) (hkv : validUtf8 k = true) (hk : k.length ≤ 32)
    (hm : validUtf8 m = true) :
    (∀ pick pick2 : List Nat, ∃ ct,
      (⟨k, true, false, none⟩ : CommonEncryptionOpts).encrypt pick m = .ok (ct, none) ∧
      (⟨k, true, false, none⟩ : CommonEncryptionOpts).decrypt pick2 ct = .ok m) ∧
    (∀ s, validUtf8 s = true → s.length ≤ 24 → ∀ pick pick2 : List Nat, ∃ ct,
      (⟨k, false, false, some s⟩ : CommonEncryptionOpts).encrypt pick m = .ok (ct, none) ∧
      (⟨k, false, false, some s⟩ : CommonEncryptionOpts).decrypt pick2 ct = .ok m) ∧
    (∀ pick : List Nat, pick.length = 24 → (∀ i ∈ pick, i < 624) →
      ∀ pick2 : List Nat, ∃ ct ns,
      (⟨k, false, true, none⟩ : CommonEncryptionOpts).encrypt pick m = .ok (ct, some ns) ∧
      (⟨k, false, false, some ns⟩ : CommonEncryptionOpts).decrypt pick2 ct = .ok m) := by
  have hkey32 := paddedKey_length k hk
  refine ⟨?_, ?_, ?_⟩
  · intro pick pick2
    have hkey := get_key_ok (⟨k, true, false, none⟩ : CommonEncryptionOpts) hk
    have henc := encrypt_ok (⟨k, true, false, none⟩ : CommonEncryptionOpts) pick m
      (k ++ List.replicate (32 - k.length) 0) (List.replicate 24 0) hkey
      (derive_nonce_all_zero (⟨k, true, false, none⟩ : CommonEncryptionOpts) pick rfl)
    refine ⟨sealAead (k ++ List.replicate (32 - k.length) 0) (List.replicate 24 0) m,
      by simpa using henc, ?_⟩
    exact decrypt_open_ok (⟨k, true, false, none⟩ : CommonEncryptionOpts) pick2 _
      (k ++ List.replicate (32 - k.length) 0) (List.replicate 24 0) m rfl hkey
      (derive_nonce_all_zero (⟨k, true, false, none⟩ : CommonEncryptionOpts) pick2 rfl)
      (openAead_sealAead _ _ m hkey32 (by simp)) hm
  · intro s hsv hsl pick pick2
    obtain ⟨v, hnfs, hv24⟩ := nonce_from_string_ok_length s hsl
    have hkey := get_key_ok (⟨k, false, false, some s⟩ : CommonEncryptionOpts) hk
    have hdn : ∀ p : List Nat,
        (⟨k, false, false, some s⟩ : CommonEncryptionOpts).derive_nonce p = .ok v := by
      intro p
      rw [derive_nonce_string (⟨k, false, false, some s⟩ : CommonEncryptionOpts) p s
        rfl rfl rfl, hnfs]
    have henc := encrypt_ok (⟨k, false, false, some s⟩ : CommonEncryptionOpts) pick m
      (k ++ List.replicate (32 - k.length) 0) v hkey (hdn pick)
    refine ⟨sealAead (k ++ List.replicate (32 - k.length) 0) v m, by simpa using henc, ?_⟩
    exact decrypt_open_ok (⟨k, false, false, some s⟩ : CommonEncryptionOpts) pick2 _
      (k ++ List.replicate (32 - k.length) 0) v m rfl hkey (hdn pick2)
      (openAead_sealAead _ _ m hkey32 hv24) hm
  · intro pick hplen hpick pick2
    have hbytes := generatedNonce_bytes pick hpick
    have hascii : ∀ b ∈ generatedNonce pick, b < 128 := fun b hb => by
      have := hbytes b hb
      omega
    have hlen24 : (generatedNonce pick).length = 24 := by
      rw [generatedNonce_length pick hpick, hplen]
    have hstr := stringify_nonce_ascii (generatedNonce pick) hascii
    have hkeyE := get_key_ok (⟨k, false, true, none⟩ : CommonEncryptionOpts) hk
    have hkeyD := get_key_ok
      (⟨k, false, false, some (generatedNonce pick)⟩ : CommonEncryptionOpts) hk
    have henc := encrypt_ok (⟨k, false, true, none⟩ : CommonEncryptionOpts) pick m
      (k ++ List.replicate (32 - k.length) 0) (generatedNonce pick) hkeyE
      (derive_nonce_generate (⟨k, false, true, none⟩ : CommonEncryptionOpts) pick rfl rfl)
    have hdnD : (⟨k, false, false, some (generatedNonce pick)⟩ :
        CommonEncryptionOpts).derive_nonce pick2 = .ok (generatedNonce pick) := by
      rw [derive_nonce_string
        (⟨k, false, false, some (generatedNonce pick)⟩ : CommonEncryptionOpts) pick2
        (generatedNonce pick) rfl rfl rfl]
      exact nonce_from_string_ascii24 _ hascii hlen24
    refine ⟨sealAead (k ++ List.replicate (32 - k.length) 0) (generatedNonce pick) m,
      generatedNonce pick, ?_, ?_⟩
    · rw [henc]
      simp only [hstr]
      rfl
    · exact decrypt_open_ok
        (⟨k, false, false, some (generatedNonce pick)⟩ : CommonEncryptionOpts) pick2 _
        (k ++ List.replicate (32 - k.length) 0) (generatedNonce pick) m rfl hkeyD hdnD
        (openAead_sealAead _ _ m hkey32 hlen24) hm

/-- Claim C1 witness: the passphrase baz and message hi, as byte lists. -/
theorem claim_C1_witness :
    (validUtf8 [98, 97, 122] = true ∧ ([98, 97, 122] : List Nat).length ≤ 32 ∧
      validUtf8 [104, 105] = true) ∧
    ((∀ pick pick2 : List Nat, ∃ ct,
      (⟨[98, 97, 122], true, false, none⟩ : CommonEncryptionOpts).encrypt pick [104, 105]
        = .ok (ct, none) ∧
      (⟨[98, 97, 122], true, false, none⟩ : CommonEncryptionOpts).decrypt pick2 ct
        = .ok [104, 105]) ∧
    (∀ s, validUtf8 s = true → s.length ≤ 24 → ∀ pick pick2 : List Nat, ∃ ct,
      (⟨[98, 97, 122], false, false, some s⟩ : CommonEncryptionOpts).encrypt pick [104, 105]
        = .ok (ct, none) ∧
      (⟨[98, 97, 122], false, false, some s⟩ : CommonEncryptionOpts).decrypt pick2 ct
        = .ok [104, 105]) ∧
    (∀ pick : List Nat, pick.length = 24 → (∀ i ∈ pick, i < 624) →
      ∀ pick2 : List Nat, ∃ ct ns,
      (⟨[98, 97, 122], false, true, none⟩ : CommonEncryptionOpts).encrypt pick [104, 105]
        = .ok (ct, some ns) ∧
      (⟨[98, 97, 122], false, false, some ns⟩ : CommonEncryptionOpts).decrypt pick2 ct
        = .ok [104, 105])) :=
  ⟨⟨by decide, by decide, by decide⟩,
    claim_C1 [98, 97, 122] [104, 105] (by decide) (by decide) (by decide)⟩
